import Mathlib

/-!
Shallow embedding of `src/t0/model.py` (multiple-choice answer scoring with an
encoder-decoder or a decoder-only language model).

Conventions of the embedding:
* torch tensors become nested lists; the batch (rows) axis is the outer list.
* finite floating-point values become exact integers `ℤ`: the code's own
  arithmetic on them is only `+`, `-`, `*`, comparisons and `max`, all of which
  `ℤ` models exactly.  The only non-finite value the code produces is
  `-torch.inf` inside additive attention biases, so bias entries live in the
  two-summand type `FVal` (`fin q` or `negInf`) with IEEE-faithful addition for
  those values (no `+inf`/NaN ever arises in the modelled expressions).
* the underlying transformer (`self._model(...)`) and `torch.log_softmax` are
  external numeric collaborators; the scorers are parameterised over them
  (`model`, `lsm`), everything the repository itself computes is embedded
  concretely.
* fallible tensor ops (`torch.gather` with an out-of-range index or mismatched
  shape, `Tensor.view` with a non-divisible size) return `Except ScoreError`.
-/

namespace T0

/-- Runtime failures of the modelled tensor operations: `shapeError` for
`view`/shape mismatches, `indexError` for an out-of-range gather index. -/
inductive ScoreError where
  | shapeError
  | indexError
deriving DecidableEq

/-- Value of one entry of an additive attention bias: a finite float (as `ℤ`)
or `-torch.inf`. -/
inductive FVal where
  | fin (q : ℤ)
  | negInf
deriving DecidableEq

/-- IEEE addition restricted to the values the code produces: finite + finite
is finite, and any sum involving `-inf` is `-inf`. -/
def FVal.add : FVal → FVal → FVal
  | .fin a, .fin b => .fin (a + b)
  | _, _ => .negInf

/-- `_expand_mask` (src/t0/model.py lines 82-93), one batch row.
`mask[:, None, None, :].expand(bs, 1, tgt, src)` broadcasts the row across all
`tgt` query rows (modelled by `List.replicate`), then `1.0 - expanded` is
computed and `-inf` is filled wherever that inverted value is nonzero. -/
def expandMaskRow (mask : List ℤ) (tgt : ℕ) : List (List FVal) :=
  List.replicate tgt
    (mask.map (fun m => if (1 - m) ≠ 0 then FVal.negInf else FVal.fin (1 - m)))

/-- `labels_causal_mask` before the `masked_fill` (lines 148-149), one row:
`1 - tril(ones(lab_len, lab_len))` with `ones(prefix_len, lab_len)`
concatenated above it along the query-row axis. -/
def labelsCausalMaskRow (P L : ℕ) : List (List ℤ) :=
  List.replicate P (List.replicate L (1 : ℤ)) ++
    (List.range L).map (fun i =>
      (List.range L).map (fun j => 1 - (if j ≤ i then (1 : ℤ) else 0)))

/-- `t.masked_fill(t.to(torch.bool), -torch.inf)`: every nonzero entry becomes
`-inf`, zero entries stay as they are. -/
def maskedFillNeg (m : List (List ℤ)) : List (List FVal) :=
  m.map (fun row => row.map (fun v => if v ≠ 0 then FVal.negInf else FVal.fin v))

/-- The prefix-LM attention bias built in the `prefixlm` branch
(lines 139-153), one batch row.  `pm`/`cm` are this row's prompt and candidate
padding masks; the code expands the concatenated mask, builds the causal block
for the labels, and adds it (`+=`) into the key columns `prefix_len:` of the
base bias for every query row. -/
def prefixCausalRow (pm cm : List ℤ) : List (List FVal) :=
  let fullMask := pm ++ cm
  let base := expandMaskRow fullMask fullMask.length
  let lcm := maskedFillNeg (labelsCausalMaskRow pm.length cm.length)
  List.zipWith
    (fun brow crow =>
      brow.take pm.length ++ List.zipWith FVal.add (brow.drop pm.length) crow)
    base lcm

/-- `torch.cumsum(xs, dim=-1)` on one row: entry `k` is the sum of the first
`k+1` entries. -/
def cumsum (xs : List ℤ) : List ℤ :=
  (List.range xs.length).map (fun k => (xs.take (k + 1)).sum)

/-- Position ids (lines 134-137), one row:
`torch.maximum(torch.cumsum(mask, -1) - 1, 0)`. -/
def positionIds (mask : List ℤ) : List ℤ :=
  (cumsum mask).map (fun c => max (c - 1) 0)

/-- Python slice `xs[start:stop]` with the usual negative-index normalisation:
a negative bound counts from the end (clamped at 0), a non-negative bound is
clamped at the length. -/
def pySlice {α : Type} (xs : List α) (start stop : ℤ) : List α :=
  let n : ℤ := xs.length
  let s : ℤ := if start < 0 then max (n + start) 0 else min start n
  let e : ℤ := if stop < 0 then max (n + stop) 0 else min stop n
  (xs.drop s.toNat).take (e - s).toNat

/-- `labels_attention_mask.unsqueeze(-1) * log_softmax(logits, dim=-1)` on one
row (lines 74 and 157): position `t`'s vocabulary vector is `log_softmax` of
that position's logits scaled by the mask entry `t` (broadcast over the
vocabulary axis). `lsm` is the external `torch.log_softmax` primitive. -/
def maskedLogProbsRow (lsm : List ℤ → List ℤ) (maskRow : List ℤ)
    (logitsRow : List (List ℤ)) : List (List ℤ) :=
  List.zipWith (fun m pos => (lsm pos).map (fun v => m * v)) maskRow logitsRow

/-- `torch.gather(row, -1, labels.unsqueeze(-1))` on one row: pick, at each
position, the entry of the vocabulary vector selected by the label.  An
out-of-range label is a runtime index error; an index longer than the input
along the position axis violates gather's size requirement. -/
def gatherRow : List (List ℤ) → List ℕ → Except ScoreError (List ℤ)
  | _, [] => .ok []
  | [], _ :: _ => .error .shapeError
  | m :: ms, l :: ls =>
    if h : l < m.length then
      match gatherRow ms ls with
      | .error e => .error e
      | .ok g => .ok (m.get ⟨l, h⟩ :: g)
    else .error .indexError

/-- `torch.gather` over the batch axis: row-wise `gatherRow`. -/
def gatherRows : List (List (List ℤ)) → List (List ℕ) →
    Except ScoreError (List (List ℤ))
  | _, [] => .ok []
  | [], _ :: _ => .error .shapeError
  | m :: ms, l :: ls =>
    match gatherRow m l with
    | .error e => .error e
    | .ok g =>
      match gatherRows ms ls with
      | .error e => .error e
      | .ok gs => .ok (g :: gs)

/-- Split a list into consecutive chunks of size `k` (fuel-structured so the
kernel can evaluate it). -/
def chunkListAux : ℕ → ℕ → List ℤ → List (List ℤ)
  | 0, _, _ => []
  | _, _, [] => []
  | fuel + 1, k, x :: xs => (x :: xs).take k :: chunkListAux fuel k ((x :: xs).drop k)

/-- Split a list into consecutive chunks of size `k`. -/
def chunkList (k : ℕ) (xs : List ℤ) : List (List ℤ) :=
  chunkListAux xs.length k xs

/-- `seq_log_prob.view(n, -1)` (lines 77 and 163): reshape the per-row scores
into `n` groups; `torch` rejects the reshape when `n` is zero, the tensor is
empty (the `-1` dimension would be ambiguous), or `n` does not divide the
number of rows. -/
def view2 (n : ℕ) (xs : List ℤ) : Except ScoreError (List (List ℤ)) :=
  if 0 < n ∧ 0 < xs.length ∧ n ∣ xs.length then
    .ok (chunkList (xs.length / n) xs)
  else .error .shapeError

/-- `torch.argmax(dim=-1)` on one row: index of the first occurrence of the
maximal entry (0 on an empty row). -/
def argmaxIdx : List ℤ → ℕ
  | [] => 0
  | x :: rest => if rest.all (fun y => y ≤ x) then 0 else argmaxIdx rest + 1

/-- The post-model selection tail of `EncoderDecoderModel.forward`
(lines 73-80): cast to float32 (identity on `ℤ`), mask-scaled log-softmax,
gather of the label tokens, per-row sum, `view(num_targets, -1)`, argmax. -/
def edSelect (lsm : List ℤ → List ℤ) (logits : List (List (List ℤ)))
    (labels : List (List ℕ)) (labelsMask : List (List ℤ)) (numTargets : ℕ) :
    Except ScoreError (List ℕ) :=
  match gatherRows (List.zipWith (maskedLogProbsRow lsm) labelsMask logits) labels with
  | .error e => .error e
  | .ok gathered =>
    match view2 numTargets (gathered.map (fun r => r.sum)) with
    | .error e => .error e
    | .ok grouped => .ok (grouped.map argmaxIdx)

/-- The post-slice selection tail of `DecoderModel.forward` (lines 155-167):
cast to float32 (identity on `ℤ`), mask-scaled log-softmax, gather of the
label tokens, per-row sum, `view(num_targets, -1)`, argmax. -/
def decSelect (lsm : List ℤ → List ℤ) (logits : List (List (List ℤ)))
    (labels : List (List ℕ)) (labelsMask : List (List ℤ)) (numTargets : ℕ) :
    Except ScoreError (List ℕ) :=
  match gatherRows (List.zipWith (maskedLogProbsRow lsm) labelsMask logits) labels with
  | .error e => .error e
  | .ok gathered =>
    match view2 numTargets (gathered.map (fun r => r.sum)) with
    | .error e => .error e
    | .ok grouped => .ok (grouped.map argmaxIdx)

/-- The fields of `batch` that the two forward passes read.  `targets` models
`batch["targets"]`; only its length (`.size(0)`, the number of examples) is
used. -/
structure Batch where
  inputIds : List (List ℕ)
  attentionMask : List (List ℤ)
  labels : List (List ℕ)
  labelsAttentionMask : List (List ℤ)
  targets : List ℕ

/-- `EncoderDecoderModel.forward` (lines 67-80), parameterised over the
external seq2seq model (`input_ids`, `attention_mask`, `labels` ↦ logits of
shape [rows, candidate_len, vocab]) and over `torch.log_softmax`. -/
def edForward (lsm : List ℤ → List ℤ)
    (model : List (List ℕ) → List (List ℤ) → List (List ℕ) → List (List (List ℤ)))
    (b : Batch) : Except ScoreError (List ℕ) :=
  edSelect lsm (model b.inputIds b.attentionMask b.labels)
    b.labels b.labelsAttentionMask b.targets.length

/-- Input construction, model call and logit slice of `DecoderModel.forward`
(lines 124-155): concatenate prompt and candidate ids and masks, derive
position ids from the concatenated mask (`.to(torch.long)` is the identity on
the exact integer mask values), optionally build the prefix-LM
bias, call the causal model, and slice `logits[:, prefix_len-1:-1]`. -/
def decSlicedLogits
    (model : List (List ℕ) → List (List ℤ) → List (List ℤ) →
      Option (List (List (List FVal))) → List (List (List ℤ)))
    (prefixlm : Bool) (b : Batch) : List (List (List ℤ)) :=
  let prefixLen := (b.inputIds.headD []).length
  let inputIds := List.zipWith (fun x y => x ++ y) b.inputIds b.labels
  let attentionMask :=
    List.zipWith (fun x y => x ++ y) b.attentionMask b.labelsAttentionMask
  let posIds := attentionMask.map (fun row => positionIds row)
  let causalMask :=
    if prefixlm then
      some (List.zipWith prefixCausalRow b.attentionMask b.labelsAttentionMask)
    else none
  (model inputIds attentionMask posIds causalMask).map
    (fun row => pySlice row ((prefixLen : ℤ) - 1) (-1))

/-- `DecoderModel.forward` (lines 124-167): sliced logits fed to the selection
tail. -/
def decForward (lsm : List ℤ → List ℤ)
    (model : List (List ℕ) → List (List ℤ) → List (List ℤ) →
      Option (List (List (List FVal))) → List (List (List ℤ)))
    (prefixlm : Bool) (b : Batch) : Except ScoreError (List ℕ) :=
  decSelect lsm (decSlicedLogits model prefixlm b)
    b.labels b.labelsAttentionMask b.targets.length

/-- Decidable equality for scorer results (used only to evaluate the embedded
scorers on concrete batches). -/
instance {α : Type} [DecidableEq α] : DecidableEq (Except ScoreError α) :=
  fun a b =>
    match a, b with
    | .ok x, .ok y =>
      if h : x = y then .isTrue (by rw [h]) else .isFalse (fun c => h (Except.ok.inj c))
    | .error x, .error y =>
      if h : x = y then .isTrue (by rw [h]) else .isFalse (fun c => h (Except.error.inj c))
    | .ok _, .error _ => .isFalse (fun c => Except.noConfusion c)
    | .error _, .ok _ => .isFalse (fun c => Except.noConfusion c)

/-! Supporting lemmas about the embedded tensor operations. -/
lemma pySlice_of_pos {α : Type} (xs : List α) (P L : ℕ) (hP : 1 ≤ P)
    (hT : xs.length = P + L) :
    pySlice xs ((P : ℤ) - 1) (-1) = (xs.drop (P - 1)).take L := by
  simp only [pySlice]
  have h1 : ¬ ((P : ℤ) - 1 < 0) := by omega
  have h2 : ((-1 : ℤ) < 0) := by omega
  rw [if_neg h1, if_pos h2]
  have hs : min ((P : ℤ) - 1) (xs.length : ℤ) = (P : ℤ) - 1 := by omega
  have he : max ((xs.length : ℤ) + (-1)) 0 = (xs.length : ℤ) - 1 := by omega
  rw [hs, he]
  have hts : ((P : ℤ) - 1).toNat = P - 1 := by omega
  have hte : ((xs.length : ℤ) - 1 - ((P : ℤ) - 1)).toNat = L := by omega
  rw [hts, hte]

lemma sum_eq_count_one (xs : List ℤ) (hbin : ∀ x ∈ xs, x = 0 ∨ x = 1) :
    xs.sum = xs.count 1 := by
  induction xs with
  | nil => simp
  | cons x t ih =>
    rcases hbin x (List.mem_cons_self x t) with h0 | h1
    · subst h0
      rw [List.count_cons]
      simp [ih (fun y hy => hbin y (List.mem_cons_of_mem _ hy))]
    · subst h1
      rw [List.count_cons]
      simp [ih (fun y hy => hbin y (List.mem_cons_of_mem _ hy))]
      omega

lemma take_sum_mono (xs : List ℤ) (hpos : ∀ x ∈ xs, 0 ≤ x) (a b : ℕ) (hab : a ≤ b) :
    (xs.take a).sum ≤ (xs.take b).sum := by
  have hsplit : xs.take b = xs.take a ++ (xs.drop a).take (b - a) := by
    rw [← List.take_add]
    congr 1
    omega
  rw [hsplit, List.sum_append]
  have : 0 ≤ ((xs.drop a).take (b - a)).sum := by
    apply List.sum_nonneg
    intro x hx
    exact hpos x (List.drop_subset a xs (List.take_subset _ _ hx))
  omega

lemma positionIds_getD (mask : List ℤ) (k : ℕ) (hk : k < mask.length) :
    (positionIds mask).getD k 0 = max ((mask.take (k + 1)).sum - 1) 0 := by
  have h1 : k < (positionIds mask).length := by
    simp [positionIds, cumsum, hk]
  rw [List.getD_eq_getElem _ _ h1]
  simp [positionIds, cumsum, List.getElem_map, List.getElem_range]

lemma argmaxIdx_spec (xs : List ℤ) (hne : xs ≠ []) :
    argmaxIdx xs < xs.length ∧
    (∀ j, j < xs.length → xs.getD j 0 ≤ xs.getD (argmaxIdx xs) 0) ∧
    (∀ j, j < argmaxIdx xs → xs.getD j 0 < xs.getD (argmaxIdx xs) 0) := by
  induction xs with
  | nil => exact absurd rfl hne
  | cons x rest ih =>
    by_cases hall : rest.all (fun y => decide (y ≤ x)) = true
    · have h0 : argmaxIdx (x :: rest) = 0 := by
        simp only [argmaxIdx]
        rw [if_pos hall]
      rw [h0]
      refine ⟨by simp, ?_, by omega⟩
      intro j hj
      match j with
      | 0 => simp
      | j + 1 =>
        simp only [List.getD_cons_succ, List.getD_cons_zero]
        have hj2 : j < rest.length := by simpa using hj
        rw [List.getD_eq_getElem _ _ hj2]
        have := List.all_eq_true.mp hall _ (List.getElem_mem hj2)
        simpa using this
    · have hne2 : rest ≠ [] := by
        intro h
        subst h
        simp at hall
      have ha : argmaxIdx (x :: rest) = argmaxIdx rest + 1 := by
        simp only [argmaxIdx]
        rw [if_neg hall]
      obtain ⟨ih1, ih2, ih3⟩ := ih hne2
      have hxlt : x < rest.getD (argmaxIdx rest) 0 := by
        have : ∃ y ∈ rest, ¬ y ≤ x := by
          simpa [List.all_eq_true] using hall
        obtain ⟨y, hymem, hygt⟩ := this
        obtain ⟨t, ht, hyt⟩ := List.mem_iff_getElem.mp hymem
        have h1 : rest.getD t 0 ≤ rest.getD (argmaxIdx rest) 0 := ih2 t ht
        rw [List.getD_eq_getElem _ _ ht, hyt] at h1
        omega
      rw [ha]
      refine ⟨by simp; omega, ?_, ?_⟩
      · intro j hj
        match j with
        | 0 =>
          simp only [List.getD_cons_succ, List.getD_cons_zero]
          omega
        | j + 1 =>
          simp only [List.getD_cons_succ]
          exact ih2 j (by simpa using hj)
      · intro j hj
        match j with
        | 0 =>
          simp only [List.getD_cons_succ, List.getD_cons_zero]
          omega
        | j + 1 =>
          simp only [List.getD_cons_succ]
          exact ih3 j (by omega)

lemma chunkListAux_spec :
    ∀ (fuel k : ℕ) (xs : List ℤ), 0 < k → xs.length ≤ fuel → k ∣ xs.length →
      (chunkListAux fuel k xs).length = xs.length / k ∧
      (∀ g ∈ chunkListAux fuel k xs, g.length = k) := by
  intro fuel
  induction fuel with
  | zero =>
    intro k xs hk hle _
    have hnil : xs = [] := List.eq_nil_of_length_eq_zero (by omega)
    subst hnil
    simp [chunkListAux]
  | succ n ih =>
    intro k xs hk hle hdvd
    match xs with
    | [] => simp [chunkListAux]
    | x :: t =>
      obtain ⟨m, hm⟩ := hdvd
      obtain ⟨m', rfl⟩ : ∃ m', m = m' + 1 := by
        refine ⟨m - 1, ?_⟩
        have : m ≠ 0 := by
          intro h
          subst h
          simp at hm
        omega
      rw [Nat.mul_succ] at hm
      have hklen : k ≤ (x :: t).length := by omega
      have htake : ((x :: t).take k).length = k := by
        rw [List.length_take]
        omega
      have hdroplen : ((x :: t).drop k).length = k * m' := by
        rw [List.length_drop]
        omega
      have hrec := ih k ((x :: t).drop k) hk (by omega) ⟨m', hdroplen⟩
      simp only [chunkListAux]
      constructor
      · have hdiv : (x :: t).length / k = m' + 1 := by
          have h2 : (x :: t).length = (m' + 1) * k := by
            rw [hm]
            ring
          rw [h2, Nat.mul_div_cancel _ hk]
        have hrecl : (chunkListAux n k ((x :: t).drop k)).length = m' := by
          rw [hrec.1, hdroplen, Nat.mul_div_cancel_left _ hk]
        simp only [List.length_cons, hrecl]
        rw [List.length_cons] at hdiv
        omega
      · intro g hg
        rcases List.mem_cons.mp hg with h | h
        · rw [h]
          exact htake
        · exact hrec.2 g h

lemma gatherRows_ok_length (ms : List (List (List ℤ))) (ls : List (List ℕ))
    (g : List (List ℤ)) (h : gatherRows ms ls = .ok g) : g.length = ls.length := by
  induction ls generalizing ms g with
  | nil =>
    have h2 : gatherRows ms [] = .ok [] := by
      cases ms <;> rfl
    rw [h2] at h
    injection h with h3
    rw [← h3]
    rfl
  | cons l ls ih =>
    cases ms with
    | nil => simp [gatherRows] at h
    | cons m ms =>
      simp only [gatherRows] at h
      cases hg : gatherRow m l with
      | error e => rw [hg] at h; cases h
      | ok g0 =>
        rw [hg] at h
        cases hrec : gatherRows ms ls with
        | error e => rw [hrec] at h; cases h
        | ok gs =>
          rw [hrec] at h
          injection h with h3
          rw [← h3]
          simp [ih ms gs hrec]

lemma edSelect_eq_decSelect (lsm : List ℤ → List ℤ) (logits : List (List (List ℤ)))
    (labels : List (List ℕ)) (labelsMask : List (List ℤ)) (numTargets : ℕ) :
    edSelect lsm logits labels labelsMask numTargets =
      decSelect lsm logits labels labelsMask numTargets := rfl

lemma edSelect_shapeError (lsm : List ℤ → List ℤ) (logits : List (List (List ℤ)))
    (labels : List (List ℕ)) (masks : List (List ℤ)) (n : ℕ) (g : List (List ℤ))
    (hg : gatherRows (List.zipWith (maskedLogProbsRow lsm) masks logits) labels = .ok g)
    (hdiv : ¬ n ∣ labels.length) :
    edSelect lsm logits labels masks n = .error .shapeError := by
  have hlen : (g.map (fun r => r.sum)).length = labels.length := by
    rw [List.length_map]
    exact gatherRows_ok_length _ _ _ hg
  have hv : view2 n (g.map (fun r => r.sum)) = .error .shapeError := by
    unfold view2
    rw [if_neg]
    intro hcond
    exact hdiv (hlen ▸ hcond.2.2)
  calc edSelect lsm logits labels masks n
      = (match view2 n (g.map (fun r => r.sum)) with
          | .error e => .error e
          | .ok grouped => .ok (grouped.map argmaxIdx)) := by
        unfold edSelect
        rw [hg]
    _ = .error .shapeError := by rw [hv]

lemma gatherRow_masked_eq (lsm : List ℤ → List ℤ)
    (hlsm : ∀ xs, (lsm xs).length = xs.length) :
    ∀ (l : List ℕ) (m : List ℤ) (g : List (List ℤ)),
      m.length = l.length → g.length = l.length →
      (∀ t, t < l.length → l.getD t 0 < (g.getD t []).length) →
      gatherRow (maskedLogProbsRow lsm m g) l =
        .ok ((List.range l.length).map (fun t =>
          m.getD t 0 * (lsm (g.getD t [])).getD (l.getD t 0) 0)) := by
  intro l
  induction l with
  | nil =>
    intro m g _ _ _
    have : gatherRow (maskedLogProbsRow lsm m g) [] = .ok [] := by
      cases maskedLogProbsRow lsm m g <;> rfl
    rw [this]
    rfl
  | cons l0 ls ih =>
    intro m g hm hg hrange
    match m, g with
    | [], _ => simp at hm
    | m0 :: ms, [] => simp at hg
    | m0 :: ms, g0 :: gs =>
      have hlg0 : ((lsm g0).map (fun v => m0 * v)).length = g0.length := by
        rw [List.length_map, hlsm]
      have hl0 : l0 < ((lsm g0).map (fun v => m0 * v)).length := by
        rw [hlg0]
        simpa using hrange 0 (by simp)
      have hrec := ih ms gs (by simpa using hm) (by simpa using hg)
        (fun t ht => by simpa using hrange (t + 1) (by simpa using Nat.succ_lt_succ ht))
      simp only [maskedLogProbsRow, List.zipWith_cons_cons]
      simp only [gatherRow, dif_pos hl0]
      simp only [maskedLogProbsRow] at hrec
      simp only [hrec]
      congr 1
      simp only [List.length_cons]
      rw [List.range_succ_eq_map]
      simp only [List.map_cons, List.map_map]
      congr 1
      · rw [List.get_eq_getElem, List.getElem_map]
        have hl0b : l0 < (lsm g0).length := by
          rw [hlsm]
          simpa using hrange 0 (by simp)
        simp only [List.getD_cons_zero]
        rw [List.getD_eq_getElem _ _ hl0b]

lemma gather_masked_padding_zero (lsm : List ℤ → List ℤ) :
    ∀ (l : List ℕ) (m : List ℤ) (g : List (List ℤ)) (out : List ℤ),
      gatherRow (maskedLogProbsRow lsm m g) l = .ok out →
      ∀ t, m.getD t 0 = 0 → out.getD t 0 = 0 := by
  intro l
  induction l with
  | nil =>
    intro m g out h t hm
    have h2 : gatherRow (maskedLogProbsRow lsm m g) [] = .ok [] := by
      cases maskedLogProbsRow lsm m g <;> rfl
    rw [h2] at h
    injection h with h3
    rw [← h3]
    rfl
  | cons l0 ls ih =>
    intro m g out h t hm
    match m, g with
    | [], _ =>
      simp only [maskedLogProbsRow, List.zipWith_nil_left, gatherRow] at h
      cases h
    | m0 :: ms, [] =>
      simp only [maskedLogProbsRow, List.zipWith_nil_right, gatherRow] at h
      cases h
    | m0 :: ms, g0 :: gs =>
      simp only [maskedLogProbsRow, List.zipWith_cons_cons, gatherRow] at h
      split at h
      case isTrue hl0 =>
        cases hrec : gatherRow (List.zipWith (fun mm pos => (lsm pos).map (fun v => mm * v)) ms gs) ls with
        | error e => rw [hrec] at h; cases h
        | ok g2 =>
          rw [hrec] at h
          injection h with h3
          rw [← h3]
          match t with
          | 0 =>
            simp only [List.getD_cons_zero] at hm ⊢
            rw [List.get_eq_getElem, List.getElem_map]
            simp [hm]
          | t + 1 =>
            simp only [List.getD_cons_succ] at hm ⊢
            exact ih ms gs g2 (by
              simpa only [maskedLogProbsRow] using hrec) t hm
      case isFalse => cases h

lemma maskedLogProbsRow_congr (lsm : List ℤ → List ℤ)
    (hlsm : ∀ xs, (lsm xs).length = xs.length) :
    ∀ (g1 g2 : List (List ℤ)) (m : List ℤ),
      g1.length = g2.length →
      (∀ t, t < g1.length → (g1.getD t []).length = (g2.getD t []).length) →
      (∀ t, t < g1.length → m.getD t 0 = 0 ∨ g1.getD t [] = g2.getD t []) →
      maskedLogProbsRow lsm m g1 = maskedLogProbsRow lsm m g2 := by
  intro g1
  induction g1 with
  | nil =>
    intro g2 m hlen _ _
    have : g2 = [] := List.eq_nil_of_length_eq_zero (by simpa using hlen.symm)
    rw [this]
  | cons a g1t ih =>
    intro g2 m hlen hplen hagree
    match g2, m with
    | [], _ => simp at hlen
    | b :: g2t, [] => rfl
    | b :: g2t, m0 :: mt =>
      simp only [maskedLogProbsRow, List.zipWith_cons_cons]
      have htail : List.zipWith (fun mm pos => (lsm pos).map (fun v => mm * v)) mt g1t =
          List.zipWith (fun mm pos => (lsm pos).map (fun v => mm * v)) mt g2t := by
        have := ih g2t mt (by simpa using hlen)
          (fun t ht => by simpa using hplen (t + 1) (by simpa using Nat.succ_lt_succ ht))
          (fun t ht => by simpa using hagree (t + 1) (by simpa using Nat.succ_lt_succ ht))
        simpa only [maskedLogProbsRow] using this
      rw [htail]
      congr 1
      rcases hagree 0 (by simp) with h0 | heq
      · simp only [List.getD_cons_zero] at h0
        rw [h0]
        apply List.ext_getElem
        · simp only [List.length_map, hlsm]
          simpa using hplen 0 (by simp)
        · intro i h1 h2
          simp only [List.getElem_map, zero_mul]
      · simp only [List.getD_cons_zero] at heq
        rw [heq]

lemma masked_batch_congr (lsm : List ℤ → List ℤ)
    (hlsm : ∀ xs, (lsm xs).length = xs.length) :
    ∀ (logits1 logits2 : List (List (List ℤ))) (masks : List (List ℤ)),
      logits1.length = logits2.length →
      (∀ r, r < logits1.length → (logits1.getD r []).length = (logits2.getD r []).length) →
      (∀ r, r < logits1.length → ∀ t, t < (logits1.getD r []).length →
        ((logits1.getD r []).getD t []).length = ((logits2.getD r []).getD t []).length) →
      (∀ r, r < logits1.length → ∀ t, t < (logits1.getD r []).length →
        (masks.getD r []).getD t 0 = 0 ∨
          (logits1.getD r []).getD t [] = (logits2.getD r []).getD t []) →
      List.zipWith (maskedLogProbsRow lsm) masks logits1 =
        List.zipWith (maskedLogProbsRow lsm) masks logits2 := by
  intro logits1
  induction logits1 with
  | nil =>
    intro logits2 masks hlen _ _ _
    have : logits2 = [] := List.eq_nil_of_length_eq_zero (by simpa using hlen.symm)
    rw [this]
  | cons a l1t ih =>
    intro logits2 masks hlen hrlen hplen hagree
    match logits2, masks with
    | [], _ => simp at hlen
    | b :: l2t, [] => rfl
    | b :: l2t, mk :: mt =>
      simp only [List.zipWith_cons_cons]
      congr 1
      · exact maskedLogProbsRow_congr lsm hlsm a b mk
          (by simpa using hrlen 0 (by simp))
          (fun t ht => by simpa using hplen 0 (by simp) t (by simpa using ht))
          (fun t ht => by simpa using hagree 0 (by simp) t (by simpa using ht))
      · refine ih l2t mt (by simpa using hlen) ?_ ?_ ?_
        · intro r hr
          simpa using hrlen (r + 1) (by simpa using Nat.succ_lt_succ hr)
        · intro r hr t ht
          simpa using hplen (r + 1) (by simpa using Nat.succ_lt_succ hr) t (by simpa using ht)
        · intro r hr t ht
          simpa using hagree (r + 1) (by simpa using Nat.succ_lt_succ hr) t (by simpa using ht)

lemma FVal.add_negInf (x : FVal) : FVal.add x .negInf = .negInf := by
  cases x <;> rfl

lemma FVal.add_fin_zero (x : FVal) : FVal.add x (.fin 0) = x := by
  cases x with
  | fin q => simp [FVal.add]
  | negInf => rfl

lemma prefixCausalRow_length (pm cm : List ℤ) :
    (prefixCausalRow pm cm).length = pm.length + cm.length := by
  simp [prefixCausalRow, expandMaskRow, maskedFillNeg, labelsCausalMaskRow]

/-! Claim theorems, counterexamples and witnesses. -/

/-- C6: for every binary padding mask and every target length, the expanded additive bias has `tgt` identical query rows over `src` key columns, with entry 0 at every key column whose mask entry is 1 and the `-inf` sentinel at every key column whose mask entry is 0. -/
theorem c6_expand (mask : List ℤ) (tgt : ℕ) (hbin : ∀ x ∈ mask, x = 0 ∨ x = 1) :
    (expandMaskRow mask tgt).length = tgt ∧
    (∀ row ∈ expandMaskRow mask tgt, row.length = mask.length) ∧
    ∀ i j, i < tgt → j < mask.length →
      ((expandMaskRow mask tgt).getD i []).getD j (FVal.fin 0) =
        if mask.getD j 0 = 1 then FVal.fin 0 else FVal.negInf := by
  refine ⟨by simp [expandMaskRow], ?_, ?_⟩
  · intro row hrow
    simp [expandMaskRow] at hrow
    rw [hrow.2]
    simp
  · intro i j hi hj
    have hlen : i < (expandMaskRow mask tgt).length := by simp [expandMaskRow, hi]
    rw [List.getD_eq_getElem _ _ hlen]
    simp only [expandMaskRow, List.getElem_replicate]
    have hj2 : j < (mask.map (fun m => if (1 - m) ≠ 0 then FVal.negInf else FVal.fin (1 - m))).length := by
      simpa using hj
    rw [List.getD_eq_getElem _ _ hj2, List.getElem_map, List.getD_eq_getElem _ _ hj]
    rcases hbin (mask[j]) (List.getElem_mem hj) with h0 | h1
    · rw [h0]
      norm_num
    · rw [h1]
      norm_num

/-- Witness for C6 at the mask `[1, 0]` with three target rows. -/
theorem c6_witness :
    (∀ x ∈ ([1, 0] : List ℤ), x = 0 ∨ x = 1) ∧
    ((expandMaskRow [1, 0] 3).getD 1 []).getD 0 (FVal.fin 0) =
      (if ([1, 0] : List ℤ).getD 0 0 = 1 then FVal.fin 0 else FVal.negInf) ∧
    ((expandMaskRow [1, 0] 3).getD 1 []).getD 1 (FVal.fin 0) =
      (if ([1, 0] : List ℤ).getD 1 0 = 1 then FVal.fin 0 else FVal.negInf) :=
  ⟨by decide,
   (c6_expand [1, 0] 3 (by decide)).2.2 1 0 (by decide) (by decide),
   (c6_expand [1, 0] 3 (by decide)).2.2 1 1 (by decide) (by decide)⟩

/-- C5: for every binary padding mask the computed position id at slot `k` is the number of 1-entries at or before `k` minus one, floored at 0; the per-row sequence is non-decreasing and never negative, the first real token gets position 0, and padding slots before a real token do not increment that token's position id. -/
theorem c5_positions (mask : List ℤ) (hbin : ∀ x ∈ mask, x = 0 ∨ x = 1) :
    (positionIds mask).length = mask.length ∧
    (∀ k, k < mask.length →
      (positionIds mask).getD k 0 = max (((mask.take (k + 1)).count 1 : ℤ) - 1) 0) ∧
    (∀ k l, k ≤ l → l < mask.length →
      (positionIds mask).getD k 0 ≤ (positionIds mask).getD l 0) ∧
    (∀ k, 0 ≤ (positionIds mask).getD k 0) ∧
    (∀ j, j < mask.length → mask.getD j 0 = 1 →
      (∀ i, i < j → mask.getD i 0 = 0) → (positionIds mask).getD j 0 = 0) := by
  have hpos : ∀ x ∈ mask, (0 : ℤ) ≤ x := by
    intro x hx
    rcases hbin x hx with h | h <;> omega
  refine ⟨by simp [positionIds, cumsum], ?_, ?_, ?_, ?_⟩
  · intro k hk
    rw [positionIds_getD mask k hk,
      sum_eq_count_one _ (fun x hx => hbin x (List.take_subset _ _ hx))]
  · intro k l hkl hl
    have hk : k < mask.length := by omega
    rw [positionIds_getD mask k hk, positionIds_getD mask l hl]
    have := take_sum_mono mask hpos (k + 1) (l + 1) (by omega)
    omega
  · intro k
    by_cases hk : k < mask.length
    · rw [positionIds_getD mask k hk]
      omega
    · rw [List.getD_eq_default]
      simp [positionIds, cumsum]
      omega
  · intro j hj hone hzero
    rw [positionIds_getD mask j hj]
    have htake : mask.take (j + 1) = mask.take j ++ [mask[j]] := by
      rw [List.take_succ]
      simp [List.getElem?_eq_getElem hj]
    have hzsum : (mask.take j).sum = 0 := by
      apply List.sum_eq_zero
      intro x hx
      rcases List.mem_iff_getElem.mp hx with ⟨i, hilen, hieq⟩
      have hilen2 : i < j := by
        have := List.length_take j mask
        omega
      rw [List.getElem_take] at hieq
      have := hzero i hilen2
      rw [List.getD_eq_getElem _ _ (by omega : i < mask.length)] at this
      omega
    have hmj : mask[j] = 1 := by
      rw [List.getD_eq_getElem _ _ hj] at hone
      exact hone
    rw [htake, List.sum_append, hzsum, hmj]
    simp

/-- Witness for C5 at the mask `[0, 1, 0, 1]` (leading and interior padding). -/
theorem c5_witness :
    (∀ x ∈ ([0, 1, 0, 1] : List ℤ), x = 0 ∨ x = 1) ∧
    positionIds [0, 1, 0, 1] = [0, 0, 0, 1] ∧
    (positionIds ([0, 1, 0, 1] : List ℤ)).getD 3 0 =
      max (((([0, 1, 0, 1] : List ℤ).take 4).count 1 : ℤ) - 1) 0 ∧
    (positionIds ([0, 1, 0, 1] : List ℤ)).getD 1 0 = 0 :=
  ⟨by decide, by decide,
   (c5_positions [0, 1, 0, 1] (by decide)).2.1 3 (by decide),
   (c5_positions [0, 1, 0, 1] (by decide)).2.2.2.2 1 (by decide) (by decide)
     (by decide)⟩

/-- C2: with prompt length `P ≥ 1` and total length `P + L`, the decoder-only scorer's slice `logits[:, P-1:-1]` is exactly the index range `[P-1, P+L-1)`, so the logit kept at offset `k` is the raw logit at position `P-1+k`, the one that predicts the token at position `P+k`. -/
theorem c2_slice (α : Type) (xs : List α) (P L : ℕ) (hP : 1 ≤ P)
    (hT : xs.length = P + L) :
    pySlice xs ((P : ℤ) - 1) (-1) = (xs.drop (P - 1)).take L ∧
    (∀ (k : ℕ) (d : α), k < L →
      (pySlice xs ((P : ℤ) - 1) (-1)).getD k d = xs.getD (P - 1 + k) d) := by
  refine ⟨pySlice_of_pos xs P L hP hT, ?_⟩
  intro k d hk
  rw [pySlice_of_pos xs P L hP hT]
  have h1 : k < ((xs.drop (P - 1)).take L).length := by
    simp [List.length_take, List.length_drop]
    omega
  have h2 : P - 1 + k < xs.length := by omega
  rw [List.getD_eq_getElem _ _ h1, List.getD_eq_getElem _ _ h2]
  rw [List.getElem_take, List.getElem_drop]

/-- Witness for C2: prompt length 3, candidate length 2, total length 5 picks exactly raw
positions 2 and 3. -/
theorem c2_witness :
    1 ≤ 3 ∧ ([10, 11, 12, 13, 14] : List ℤ).length = 3 + 2 ∧
    (pySlice ([10, 11, 12, 13, 14] : List ℤ) (((3 : ℕ) : ℤ) - 1) (-1) =
        (([10, 11, 12, 13, 14] : List ℤ).drop (3 - 1)).take 2 ∧
      ∀ (k : ℕ) (d : ℤ), k < 2 →
        (pySlice ([10, 11, 12, 13, 14] : List ℤ) (((3 : ℕ) : ℤ) - 1) (-1)).getD k d =
          ([10, 11, 12, 13, 14] : List ℤ).getD (3 - 1 + k) d) ∧
    pySlice ([10, 11, 12, 13, 14] : List ℤ) (((3 : ℕ) : ℤ) - 1) (-1) = [12, 13] :=
  ⟨by decide, by decide, c2_slice ℤ [10, 11, 12, 13, 14] 3 2 (by decide) (by decide),
   by decide⟩

/-- C10: the slice `[P-1:-1]` of the raw logits has length exactly `L` (matching the labels consumed by the gather) whenever `P ≥ 1`; with `P = 0` the slice normalises to `[-1:-1]`, is empty, and for a non-empty candidate the gather's length precondition `L ≤ slice.length` is violated. -/
theorem c10_slice (α : Type) (xs : List α) (P L : ℕ) (hT : xs.length = P + L) :
    (1 ≤ P → (pySlice xs ((P : ℤ) - 1) (-1)).length = L) ∧
    (P = 0 → pySlice xs ((P : ℤ) - 1) (-1) = [] ∧
      (1 ≤ L → ¬ (L ≤ (pySlice xs ((P : ℤ) - 1) (-1)).length))) := by
  constructor
  · intro hP
    rw [pySlice_of_pos xs P L hP hT]
    simp [List.length_take, List.length_drop]
    omega
  · intro hP
    subst hP
    simp only [Nat.cast_zero]
    have : pySlice xs ((0 : ℤ) - 1) (-1) = [] := by
      simp only [pySlice]
      have h1 : ((0 : ℤ) - 1 < 0) := by omega
      have h2 : ((-1 : ℤ) < 0) := by omega
      rw [if_pos h1, if_pos h2]
      simp
    refine ⟨this, ?_⟩
    intro hL
    rw [this]
    simp
    omega

/-- Witness for C10 at `P = 0`, `L = 1`: the slice is empty and the gather length
precondition fails. -/
theorem c10_witness :
    ([5] : List ℤ).length = 0 + 1 ∧
    pySlice ([5] : List ℤ) (((0 : ℕ) : ℤ) - 1) (-1) = [] ∧
    ¬ (1 ≤ (pySlice ([5] : List ℤ) (((0 : ℕ) : ℤ) - 1) (-1)).length) :=
  ⟨by decide,
   ((c10_slice ℤ [5] 0 1 (by decide)).2 rfl).1,
   ((c10_slice ℤ [5] 0 1 (by decide)).2 rfl).2 (by decide)⟩

/-- C8: whenever the `view(n, -1)` reshape succeeds, it yields `n` groups of `rows/n` scores each, and on every group `argmax` returns the least index attaining the maximal score (ties broken by lowest index), which is therefore in `[0, candidates_per_example)`. -/
theorem c8_argmax (scores : List ℤ) (n : ℕ) (result : List (List ℤ))
    (h : view2 n scores = .ok result) :
    result.length = n ∧
    ∀ g ∈ result, g.length = scores.length / n ∧
      argmaxIdx g < g.length ∧
      (∀ j, j < g.length → g.getD j 0 ≤ g.getD (argmaxIdx g) 0) ∧
      (∀ j, j < argmaxIdx g → g.getD j 0 < g.getD (argmaxIdx g) 0) := by
  unfold view2 at h
  split at h
  case isFalse => exact absurd h (by simp)
  case isTrue hcond =>
    obtain ⟨hn, hlen, q, hq⟩ := hcond
    have hres : result = chunkList (scores.length / n) scores := by
      injection h with h2
      exact h2.symm
    have hq0 : 0 < q := by
      rcases Nat.eq_zero_or_pos q with h | h
      · subst h
        rw [Nat.mul_zero] at hq
        omega
      · exact h
    have hk : scores.length / n = q := by
      rw [hq, Nat.mul_comm, Nat.mul_div_cancel _ hn]
    have hdvd : q ∣ scores.length := ⟨n, by rw [hq, Nat.mul_comm]⟩
    have hchunk := chunkListAux_spec scores.length q scores hq0 (le_refl _) hdvd
    rw [hres]
    constructor
    · rw [chunkList, hk, hchunk.1, hq, Nat.mul_div_cancel _ hq0]
    · intro g hg
      rw [chunkList, hk] at hg
      have hglen : g.length = q := hchunk.2 g hg
      have hgne : g ≠ [] := by
        intro hnil
        rw [hnil] at hglen
        simp at hglen
        omega
      obtain ⟨a1, a2, a3⟩ := argmaxIdx_spec g hgne
      exact ⟨by rw [hglen, hk], a1, a2, a3⟩

/-- Witness for C8 on the score matrix `[[1, 3], [2, 2]]`, including a tie broken by the
lowest index. -/
theorem c8_witness :
    view2 2 [1, 3, 2, 2] = Except.ok [[1, 3], [2, 2]] ∧
    ([[1, 3], [2, 2]] : List (List ℤ)).length = 2 ∧
    argmaxIdx [2, 2] < ([2, 2] : List ℤ).length ∧
    argmaxIdx [2, 2] = 0 ∧ argmaxIdx [1, 3] = 1 :=
  ⟨by decide,
   (c8_argmax [1, 3, 2, 2] 2 [[1, 3], [2, 2]] (by decide)).1,
   ((c8_argmax [1, 3, 2, 2] 2 [[1, 3], [2, 2]] (by decide)).2 [2, 2] (by decide)).2.1,
   by decide, by decide⟩

/-- C7: one example with two candidates, the first (A) receiving a strictly higher per-token log-probability than the second (B) at every real (mask-1) position under a shared binary candidate mask: the returned prediction is A's row position within the group, index 0. -/
theorem c7_higher_wins (lsm : List ℤ → List ℤ)
    (hlsm : ∀ xs, (lsm xs).length = xs.length)
    (gA gB : List (List ℤ)) (lA lB : List ℕ) (m : List ℤ) (L : ℕ)
    (hm : m.length = L) (hbin : ∀ x ∈ m, x = 0 ∨ x = 1)
    (hgA : gA.length = L) (hgB : gB.length = L)
    (hlA : lA.length = L) (hlB : lB.length = L)
    (hrangeA : ∀ t, t < L → lA.getD t 0 < (gA.getD t []).length)
    (hrangeB : ∀ t, t < L → lB.getD t 0 < (gB.getD t []).length)
    (hgt : ∀ t, t < L → m.getD t 0 = 1 →
      (lsm (gB.getD t [])).getD (lB.getD t 0) 0 <
        (lsm (gA.getD t [])).getD (lA.getD t 0) 0) :
    edSelect lsm [gA, gB] [lA, lB] [m, m] 1 = .ok [0] := by
  have hA := gatherRow_masked_eq lsm hlsm lA m gA (by omega) (by omega)
    (fun t ht => hrangeA t (by omega))
  have hB := gatherRow_masked_eq lsm hlsm lB m gB (by omega) (by omega)
    (fun t ht => hrangeB t (by omega))
  rw [hlA] at hA
  rw [hlB] at hB
  set sA := (List.range L).map (fun t =>
    m.getD t 0 * (lsm (gA.getD t [])).getD (lA.getD t 0) 0) with hsA
  set sB := (List.range L).map (fun t =>
    m.getD t 0 * (lsm (gB.getD t [])).getD (lB.getD t 0) 0) with hsB
  have hrows : gatherRows (List.zipWith (maskedLogProbsRow lsm) [m, m] [gA, gB])
      [lA, lB] = .ok [sA, sB] := by
    simp only [List.zipWith_cons_cons, List.zipWith_nil_left]
    simp only [gatherRows, hA, hB]
  have hsum : sB.sum ≤ sA.sum := by
    apply List.sum_le_sum
    intro i hi
    have hiL : i < L := List.mem_range.mp hi
    have hmem : m.getD i 0 ∈ m := by
      rw [List.getD_eq_getElem _ _ (by omega)]
      exact List.getElem_mem _
    rcases hbin _ hmem with h0 | h1
    · rw [h0]
      simp
    · rw [h1, one_mul, one_mul]
      exact le_of_lt (hgt i hiL h1)
  have hview : view2 1 [sA.sum, sB.sum] = .ok [[sA.sum, sB.sum]] := by
    simp [view2, chunkList, chunkListAux]
  have hidx : argmaxIdx [sA.sum, sB.sum] = 0 := by
    simp [argmaxIdx, hsum]
  calc edSelect lsm [gA, gB] [lA, lB] [m, m] 1
      = (match view2 1 ([sA, sB].map (fun r => r.sum)) with
          | .error e => .error e
          | .ok grouped => .ok (grouped.map argmaxIdx)) := by
        unfold edSelect
        rw [hrows]
    _ = .ok [0] := by
        simp only [List.map_cons, List.map_nil, hview, hidx]

/-- Witness for C7 with one scored position where A's log-probability 2 beats B's 0. -/
theorem c7_witness :
    edSelect (fun xs => xs) [[[2, 0]], [[0, 0]]] [[0], [0]] [[1], [1]] 1 = .ok [0] :=
  c7_higher_wins (fun xs => xs) (fun _ => rfl) [[2, 0]] [[0, 0]] [0] [0] [1] 1
    (by decide) (by decide) (by decide) (by decide) (by decide) (by decide)
    (by decide) (by decide) (by decide)

/-- C4: a candidate position whose mask entry is 0 contributes exactly 0 to the gathered per-row scores, and two logit tensors of equal shape that agree at all non-padding positions produce identical results from both selection tails, whatever the logits at padding positions are. -/
theorem c4_padding_invariance (lsm : List ℤ → List ℤ) (hlsm : ∀ xs, (lsm xs).length = xs.length) :
    (∀ (l : List ℕ) (m : List ℤ) (g : List (List ℤ)) (out : List ℤ),
      gatherRow (maskedLogProbsRow lsm m g) l = .ok out →
      ∀ t, m.getD t 0 = 0 → out.getD t 0 = 0) ∧
    (∀ (logits1 logits2 : List (List (List ℤ))) (labels : List (List ℕ))
        (masks : List (List ℤ)) (n : ℕ),
      logits1.length = logits2.length →
      (∀ r, r < logits1.length → (logits1.getD r []).length = (logits2.getD r []).length) →
      (∀ r, r < logits1.length → ∀ t, t < (logits1.getD r []).length →
        ((logits1.getD r []).getD t []).length = ((logits2.getD r []).getD t []).length) →
      (∀ r, r < logits1.length → ∀ t, t < (logits1.getD r []).length →
        (masks.getD r []).getD t 0 = 0 ∨
          (logits1.getD r []).getD t [] = (logits2.getD r []).getD t []) →
      edSelect lsm logits1 labels masks n = edSelect lsm logits2 labels masks n ∧
      decSelect lsm logits1 labels masks n = decSelect lsm logits2 labels masks n) := by
  refine ⟨gather_masked_padding_zero lsm, ?_⟩
  intro logits1 logits2 labels masks n hlen hrlen hplen hagree
  have hmb := masked_batch_congr lsm hlsm logits1 logits2 masks hlen hrlen hplen hagree
  constructor
  · unfold edSelect
    rw [hmb]
  · unfold decSelect
    rw [hmb]

/-- Witness for C4: perturbing the logits of the padded second position (mask 0) leaves
the selection result unchanged. -/
theorem c4_witness :
    edSelect (fun xs => xs) [[[1, 0], [7, 7]]] [[0, 0]] [[1, 0]] 1 =
      edSelect (fun xs => xs) [[[1, 0], [100, -3]]] [[0, 0]] [[1, 0]] 1 ∧
    decSelect (fun xs => xs) [[[1, 0], [7, 7]]] [[0, 0]] [[1, 0]] 1 =
      decSelect (fun xs => xs) [[[1, 0], [100, -3]]] [[0, 0]] [[1, 0]] 1 :=
  (c4_padding_invariance (fun xs => xs) (fun _ => rfl)).2
    [[[1, 0], [7, 7]]] [[[1, 0], [100, -3]]] [[0, 0]] [[1, 0]] 1
    (by decide) (by decide) (by decide) (by decide)

/-- C9: the post-model selection pipelines of the two scorers are the same function:
on equal aligned logits, labels, label masks and example count, the
cast/log-softmax/mask/gather/sum/reshape/argmax tail of `EncoderDecoderModel.forward`
and that of `DecoderModel.forward` return equal results. -/
theorem c9_selector_tails_equal (lsm : List ℤ → List ℤ) (logits : List (List (List ℤ)))
    (labels : List (List ℕ)) (labelsMask : List (List ℤ)) (numTargets : ℕ) :
    edSelect lsm logits labels labelsMask numTargets =
      decSelect lsm logits labels labelsMask numTargets := rfl

/-- C3 (amended): a batch whose row count is not a multiple of the example count makes
both scorers fail with the shape error of `view(n, -1)` - but only after the numeric
stages (model forward, log-softmax, mask, gather, sum) have run: the reshape is the
last step before argmax, so the theorem needs the gather stage to have succeeded. -/
theorem c3_shape_error_at_reshape (lsm : List ℤ → List ℤ)
    (edModel : List (List ℕ) → List (List ℤ) → List (List ℕ) → List (List (List ℤ)))
    (decModel : List (List ℕ) → List (List ℤ) → List (List ℤ) →
      Option (List (List (List FVal))) → List (List (List ℤ)))
    (prefixlm : Bool) (b1 b2 : Batch) (g1 g2 : List (List ℤ))
    (hg1 : gatherRows (List.zipWith (maskedLogProbsRow lsm) b1.labelsAttentionMask
      (edModel b1.inputIds b1.attentionMask b1.labels)) b1.labels = .ok g1)
    (hdiv1 : ¬ b1.targets.length ∣ b1.labels.length)
    (hg2 : gatherRows (List.zipWith (maskedLogProbsRow lsm) b2.labelsAttentionMask
      (decSlicedLogits decModel prefixlm b2)) b2.labels = .ok g2)
    (hdiv2 : ¬ b2.targets.length ∣ b2.labels.length) :
    edForward lsm edModel b1 = .error .shapeError ∧
    decForward lsm decModel prefixlm b2 = .error .shapeError := by
  constructor
  · exact edSelect_shapeError lsm _ _ _ _ g1 hg1 hdiv1
  · have h := edSelect_shapeError lsm (decSlicedLogits decModel prefixlm b2)
      b2.labels b2.labelsAttentionMask b2.targets.length g2 hg2 hdiv2
    rw [edSelect_eq_decSelect] at h
    exact h

/-- Counterexample for C3 as stated: a batch with 3 rows and 2 declared examples (not
divisible) whose first label is out of vocabulary range fails with the gather's index
error, not with a shape error - so the divisibility failure does not happen before the
numeric computation. -/
theorem c3_counterexample :
    edForward (fun xs => xs) (fun _ _ _ => [[[0, 0]], [[0, 0]], [[0, 0]]])
        ⟨[[0], [0], [0]], [[1], [1], [1]], [[5], [0], [0]], [[1], [1], [1]], [0, 0]⟩ =
      .error .indexError ∧
    ScoreError.indexError ≠ ScoreError.shapeError := by
  exact ⟨by decide, by decide⟩

/-- Witness for C3 (amended): 3 rows, 2 declared examples, all labels valid - both
scorers reach the reshape and fail there with the shape error. -/
theorem c3_witness :
    ¬ ((2 : ℕ) ∣ 3) ∧
    edForward (fun xs => xs) (fun _ _ _ => [[[0, 0]], [[0, 0]], [[0, 0]]])
        ⟨[[0], [0], [0]], [[1], [1], [1]], [[0], [0], [0]], [[1], [1], [1]], [0, 0]⟩ =
      .error .shapeError ∧
    decForward (fun xs => xs) (fun _ _ _ _ => [[[0], [0]], [[0], [0]], [[0], [0]]]) false
        ⟨[[0], [0], [0]], [[1], [1], [1]], [[0], [0], [0]], [[1], [1], [1]], [0, 0]⟩ =
      .error .shapeError := by
  refine ⟨by decide, ?_, ?_⟩
  · exact (c3_shape_error_at_reshape (fun xs => xs)
      (fun _ _ _ => [[[0, 0]], [[0, 0]], [[0, 0]]])
      (fun _ _ _ _ => [[[0], [0]], [[0], [0]], [[0], [0]]]) false
      ⟨[[0], [0], [0]], [[1], [1], [1]], [[0], [0], [0]], [[1], [1], [1]], [0, 0]⟩
      ⟨[[0], [0], [0]], [[1], [1], [1]], [[0], [0], [0]], [[1], [1], [1]], [0, 0]⟩
      [[0], [0], [0]] [[0], [0], [0]]
      (by decide) (by decide) (by decide) (by decide)).1
  · exact (c3_shape_error_at_reshape (fun xs => xs)
      (fun _ _ _ => [[[0, 0]], [[0, 0]], [[0, 0]]])
      (fun _ _ _ _ => [[[0], [0]], [[0], [0]], [[0], [0]]]) false
      ⟨[[0], [0], [0]], [[1], [1], [1]], [[0], [0], [0]], [[1], [1], [1]], [0, 0]⟩
      ⟨[[0], [0], [0]], [[1], [1], [1]], [[0], [0], [0]], [[1], [1], [1]], [0, 0]⟩
      [[0], [0], [0]] [[0], [0], [0]]
      (by decide) (by decide) (by decide) (by decide)).2

/-- C1 (amended): in the prefix-LM path, for binary prompt and candidate masks the built additive bias entry at query row `i` and key column `j` is 0 exactly when column `j` is non-padding and either `j` is a prompt column or `i` and `j` are both candidate positions with `j ≤ i`; every other entry is `-inf`.  Prompt query rows therefore see only the non-padding prompt columns: the block prepended above the candidate-causal triangle is all `-inf` (the prepended `ones` are filled with `-inf`), not the all-zero bias the claim asserts, so prompt tokens are blocked from candidate columns.  Candidate query row `i` sees all non-padding prompt positions plus non-padding candidate positions `j ≤ i`, as claimed. -/
theorem c1_prefix_bias_entries (pm cm : List ℤ)
    (hpm : ∀ x ∈ pm, x = 0 ∨ x = 1) (hcm : ∀ x ∈ cm, x = 0 ∨ x = 1)
    (i j : ℕ) (hi : i < pm.length + cm.length) (hj : j < pm.length + cm.length) :
    ((prefixCausalRow pm cm).getD i []).getD j (FVal.fin 0) =
      if (pm ++ cm).getD j 0 = 1 ∧ (j < pm.length ∨ (pm.length ≤ i ∧ j ≤ i))
      then FVal.fin 0 else FVal.negInf := by
  set P := pm.length with hP
  set L := cm.length with hL
  set full := pm ++ cm with hfull
  have hfullLen : full.length = P + L := by
    simp [hfull]
  have hfullBin : ∀ x ∈ full, x = 0 ∨ x = 1 := by
    intro x hx
    rcases List.mem_append.mp hx with h | h
    · exact hpm x h
    · exact hcm x h
  -- the shared query row of the expanded padding bias
  set inner := full.map (fun m => if (1 - m) ≠ 0 then FVal.negInf else FVal.fin (1 - m))
    with hinner
  have hinnerLen : inner.length = P + L := by
    simp [hinner, hfullLen]
  have hinnerEntry : ∀ jj, jj < P + L →
      inner.getD jj (FVal.fin 0) =
        if full.getD jj 0 = 1 then FVal.fin 0 else FVal.negInf := by
    intro jj hjj
    have hjf : jj < full.length := by omega
    rw [List.getD_eq_getElem _ _ (by omega : jj < inner.length)]
    rw [List.getD_eq_getElem _ _ hjf]
    simp only [hinner, List.getElem_map]
    rcases hfullBin full[jj] (List.getElem_mem hjf) with h0 | h1
    · rw [h0]
      norm_num
    · rw [h1]
      norm_num
  -- the selected row of the final bias
  have hlcmLen : (maskedFillNeg (labelsCausalMaskRow P L)).length = P + L := by
    simp [maskedFillNeg, labelsCausalMaskRow]
  set crow := (maskedFillNeg (labelsCausalMaskRow P L)).getD i [] with hcrow
  have hrow : (prefixCausalRow pm cm).getD i [] =
      inner.take P ++ List.zipWith FVal.add (inner.drop P) crow := by
    have hilt : i < (prefixCausalRow pm cm).length := by
      rw [prefixCausalRow_length]
      omega
    rw [List.getD_eq_getElem _ _ hilt]
    simp only [prefixCausalRow]
    rw [List.getElem_zipWith]
    rw [hcrow, List.getD_eq_getElem _ _ (by omega : i < (maskedFillNeg (labelsCausalMaskRow P L)).length)]
    simp only [expandMaskRow, List.getElem_replicate]
  have hcrowLen : crow.length = L := by
    rw [hcrow, List.getD_eq_getElem _ _ (by omega : i < (maskedFillNeg (labelsCausalMaskRow P L)).length)]
    simp only [maskedFillNeg, List.getElem_map, List.length_map]
    simp only [labelsCausalMaskRow]
    rcases Nat.lt_or_ge i P with hiP | hiP
    · rw [List.getElem_append_left (by simpa using hiP)]
      simp
    · rw [List.getElem_append_right (by simpa using hiP)]
      simp
  have hlenRow : (inner.take P ++ List.zipWith FVal.add (inner.drop P) crow).length = P + L := by
    simp only [List.length_append, List.length_take, List.length_zipWith, List.length_drop,
      hinnerLen, hcrowLen]
    omega
  rw [hrow]
  rcases Nat.lt_or_ge j P with hjP | hjP
  · -- prompt key column: only the padding bias applies, for every query row
    rw [List.getD_eq_getElem _ _ (by omega : j < (inner.take P ++ List.zipWith FVal.add (inner.drop P) crow).length)]
    rw [List.getElem_append_left (by simp only [List.length_take, hinnerLen]; omega)]
    rw [List.getElem_take]
    rw [← List.getD_eq_getElem inner (FVal.fin 0) (by omega : j < inner.length)]
    rw [hinnerEntry j (by omega)]
    by_cases hfj : full.getD j 0 = 1
    · rw [if_pos hfj, if_pos ⟨hfj, Or.inl hjP⟩]
    · rw [if_neg hfj, if_neg (fun hc => hfj hc.1)]
  · -- candidate key column: padding bias plus the filled causal-block entry
    obtain ⟨j2, rfl⟩ : ∃ j2, j = P + j2 := ⟨j - P, by omega⟩
    rw [List.getD_eq_getElem _ _ (by omega : P + j2 < (inner.take P ++ List.zipWith FVal.add (inner.drop P) crow).length)]
    rw [List.getElem_append_right (by simp only [List.length_take, hinnerLen]; omega)]
    have hidx : P + j2 - (inner.take P).length = j2 := by
      simp only [List.length_take, hinnerLen]
      omega
    simp only [hidx]
    rw [List.getElem_zipWith]
    rw [List.getElem_drop]
    rw [← List.getD_eq_getElem inner (FVal.fin 0) (by omega : P + j2 < inner.length)]
    rw [hinnerEntry (P + j2) (by omega)]
    rcases Nat.lt_or_ge i P with hiP | hiP
    · -- prompt query row at a candidate column: the prepended ones block is -inf
      have hcrowA : crow = List.replicate L FVal.negInf := by
        rw [hcrow, List.getD_eq_getElem _ _ (by omega : i < (maskedFillNeg (labelsCausalMaskRow P L)).length)]
        simp only [maskedFillNeg, List.getElem_map]
        have hiLen : i < (labelsCausalMaskRow P L).length := by
          simp only [labelsCausalMaskRow, List.length_append, List.length_replicate,
            List.length_map, List.length_range]
          omega
        have hrep : (labelsCausalMaskRow P L)[i] = List.replicate L (1 : ℤ) := by
          simp only [labelsCausalMaskRow]
          rw [List.getElem_append_left (by simpa using hiP)]
          simp
        rw [hrep, List.map_replicate]
        norm_num
      have hj2L : j2 < L := by omega
      simp only [hcrowA, List.getElem_replicate]
      rw [FVal.add_negInf]
      rw [if_neg]
      intro hc
      rcases hc.2 with h | h
      · omega
      · omega
    · -- candidate query row: causal lower-triangle entry
      have hcrowB : crow = (List.range L).map
          (fun t => if t ≤ i - P then FVal.fin 0 else FVal.negInf) := by
        rw [hcrow, List.getD_eq_getElem _ _ (by omega : i < (maskedFillNeg (labelsCausalMaskRow P L)).length)]
        simp only [maskedFillNeg, List.getElem_map]
        have hiLen : i < (labelsCausalMaskRow P L).length := by
          simp only [labelsCausalMaskRow, List.length_append, List.length_replicate,
            List.length_map, List.length_range]
          omega
        have hrow2 : (labelsCausalMaskRow P L)[i] =
            (List.range L).map (fun t => 1 - (if t ≤ i - P then (1 : ℤ) else 0)) := by
          simp only [labelsCausalMaskRow]
          rw [List.getElem_append_right (by simpa using hiP)]
          simp only [List.length_replicate]
          rw [List.getElem_map, List.getElem_range]
        rw [hrow2, List.map_map]
        apply List.map_congr_left
        intro t _
        by_cases htle : t ≤ i - P
        · simp [htle]
        · simp [htle]
      have hj2L : j2 < L := by omega
      simp only [hcrowB, List.getElem_map, List.getElem_range]
      by_cases hji : j2 ≤ i - P
      · rw [if_pos hji, FVal.add_fin_zero]
        by_cases hfj : full.getD (P + j2) 0 = 1
        · rw [if_pos hfj, if_pos ⟨hfj, Or.inr ⟨hiP, by omega⟩⟩]
        · rw [if_neg hfj, if_neg (fun hc => hfj hc.1)]
      · rw [if_neg hji, FVal.add_negInf]
        rw [if_neg]
        intro hc
        rcases hc.2 with h | h
        · omega
        · omega

/-- Counterexample for C1 as stated: prompt `[1]`, candidate `[1]` (no padding at all).
The claim asserts the prompt query row's bias at the candidate column (the prepended
block) is zero; the code produces the `-inf` sentinel there. -/
theorem c1_counterexample :
    ((prefixCausalRow [1] [1]).getD 0 []).getD 1 (FVal.fin 0) = FVal.negInf ∧
    FVal.negInf ≠ FVal.fin 0 := by
  exact ⟨by decide, by decide⟩

/-- Witness for C1 (amended) at prompt mask `[1, 0]`, candidate mask `[1, 1]`: the
second candidate query row sees the non-padding prompt column. -/
theorem c1_witness :
    (∀ x ∈ ([1, 0] : List ℤ), x = 0 ∨ x = 1) ∧
    ((prefixCausalRow [1, 0] [1, 1]).getD 3 []).getD 2 (FVal.fin 0) =
      (if (([1, 0] : List ℤ) ++ [1, 1]).getD 2 0 = 1 ∧
          (2 < ([1, 0] : List ℤ).length ∨ (([1, 0] : List ℤ).length ≤ 3 ∧ 2 ≤ 3))
        then FVal.fin 0 else FVal.negInf) :=
  ⟨by decide,
   c1_prefix_bias_entries [1, 0] [1, 1] (by decide) (by decide) 3 2 (by decide) (by decide)⟩

end T0
